import Mathlib

/-!
Verification of the SQL-WHERE-clause evaluator of this repository.

The repository contains two iterations of the same program:
* `where.cpp` — the original version: `Where::eval` is recursive, the
  logical-operator constants are `AND = 0`, `OR = 1`, and the numeric
  conversions (`std::stoi` / `std::stod`) are unprotected, so a failed
  conversion throws out of `Condition<T>::eval`.
* the refined version (the unnamed source file) — `Where::eval` is an
  explicit short-circuiting loop, the operator constants live in the
  `Operator` class (`EQ..GE = 0x00..0x05`, `AND = 0x07`, `OR = 0x08`),
  and the int/float `getColumnValue` specialisations catch
  `std::invalid_argument` / `std::out_of_range` and report failure.

Both versions are embedded below.  Machine integers are modelled as `Int`
with the 32-bit `int` range made explicit where `std::stoi` checks it;
C++ `float`/`double` literals and converted cell values are modelled as
exact rationals (`Rat`): every numeric literal appearing in the sources
and in the concrete inputs used below is exactly representable, so the
rounding of `double`→`float` narrowing is not modelled.  Undefined
behaviour (out-of-bounds `std::vector` indexing) and uncaught exceptions
are modelled as `none`.
-/

/-- `header_t` is `std::map<std::string, int>`: modelled as an association
list from column names to indices.  (`std::map` keeps its entries sorted
by key; an association list with unique keys gives the same lookups.) -/
abbrev Header : Type := List (String × Int)

/-- `row_t` is `std::vector<std::string>`. -/
abbrev Row : Type := List String

/-- `std::map::operator[]` as used by `getColumnValue`: returns the value
stored for the key, and for an absent key first value-initialises the
mapped value (an `int`, hence `0`) and inserts the entry.  The possibly
grown map is returned alongside the value, because the C++ code receives
the header by reference and this insertion is visible to the caller. -/
def mapGet (h : Header) (k : String) : Int × Header :=
  match List.lookup k h with
  | some v => (v, h)
  | none => (0, h ++ [(k, 0)])

/-- Whitespace accepted by `std::isspace` in the default locale, which is
what `strtol`/`strtod` (hence `std::stoi`/`std::stod`) skip. -/
def isSpaceChar (c : Char) : Bool :=
  c == ' ' || c == '\t' || c == '\n' || c == '\x0b' || c == '\x0c' || c == '\r'

/-- Value of a run of decimal digits. -/
def digitsVal (ds : List Char) : Nat :=
  ds.foldl (fun a c => a * 10 + (c.toNat - 48)) 0

/-- The parsing part of `std::stoi` (i.e. `strtol`, base 10): skip
whitespace, optional sign, then the longest run of decimal digits.
Returns the (unbounded) value and the unconsumed remainder of the string,
or `none` when no digits are found (`std::invalid_argument`). -/
def stoiParse (cs : List Char) : Option (Int × List Char) :=
  let cs1 := cs.dropWhile isSpaceChar
  match cs1 with
  | '-' :: rest =>
    let ds := rest.takeWhile Char.isDigit
    if ds.isEmpty then none
    else some (-(digitsVal ds : Int), rest.drop ds.length)
  | '+' :: rest =>
    let ds := rest.takeWhile Char.isDigit
    if ds.isEmpty then none
    else some ((digitsVal ds : Int), rest.drop ds.length)
  | _ =>
    let ds := cs1.takeWhile Char.isDigit
    if ds.isEmpty then none
    else some ((digitsVal ds : Int), cs1.drop ds.length)

/-- Smallest value of a 32-bit `int`. -/
def intMin : Int := -2147483648

/-- Largest value of a 32-bit `int`. -/
def intMax : Int := 2147483647

/-- `std::stoi`: `none` models a thrown exception — `std::invalid_argument`
when no digits can be parsed, `std::out_of_range` when the parsed value
does not fit in `int`. -/
def stoi (s : String) : Option Int :=
  match stoiParse s.data with
  | none => none
  | some (v, _) => if v < intMin || intMax < v then none else some v

/-- Largest finite `double`, `(2^53 - 1) * 2^971`, as an exact rational. -/
def dblMax : Rat := (2 ^ 53 - 1) * 2 ^ 971

/-- The parsing part of `std::stod` (i.e. `strtod`) for decimal forms:
whitespace, optional sign, digits with an optional decimal point, and an
optional exponent part (which is only consumed when it has digits).  The
value is returned as an exact rational together with the unconsumed
remainder; `none` when no mantissa digits are found
(`std::invalid_argument`).  Hexadecimal floats and `inf`/`nan` spellings
are not modelled (no repository input uses them). -/
def stodParse (cs : List Char) : Option (Rat × List Char) :=
  let cs1 := cs.dropWhile isSpaceChar
  let (neg, cs2) :=
    match cs1 with
    | '-' :: rest => (true, rest)
    | '+' :: rest => (false, rest)
    | _ => (false, cs1)
  let ip := cs2.takeWhile Char.isDigit
  let cs3 := cs2.drop ip.length
  let (fp, cs4) :=
    match cs3 with
    | '.' :: rest => (rest.takeWhile Char.isDigit, rest.drop (rest.takeWhile Char.isDigit).length)
    | _ => ([], cs3)
  if ip.isEmpty && fp.isEmpty then none
  else
    let mant : Rat := (digitsVal ip : Rat) + (digitsVal fp : Rat) / ((10 : Rat) ^ fp.length)
    let (ex, cs5) :=
      match cs4 with
      | 'e' :: rest | 'E' :: rest =>
        let (eneg, rest1) :=
          match rest with
          | '-' :: r => (true, r)
          | '+' :: r => (false, r)
          | _ => (false, rest)
        let eds := rest1.takeWhile Char.isDigit
        if eds.isEmpty then ((false, 0), cs4)
        else ((eneg, digitsVal eds), rest1.drop eds.length)
      | _ => ((false, 0), cs4)
    let scaled : Rat := if ex.1 then mant / ((10 : Rat) ^ ex.2) else mant * ((10 : Rat) ^ ex.2)
    some ((if neg then -scaled else scaled), cs5)

/-- `std::stod`: `none` models a thrown exception — `std::invalid_argument`
when nothing parses, `std::out_of_range` when the value overflows the
`double` range.  (Underflow to zero is not modelled.) -/
def stod (s : String) : Option Rat :=
  match stodParse s.data with
  | none => none
  | some (v, _) => if v < -dblMax || dblMax < v then none else some v

/-- The operator constants of the refined version's `Operator` class. -/
def Operator.EQ : Int := 0x00

def Operator.NE : Int := 0x01

def Operator.LT : Int := 0x02

def Operator.LE : Int := 0x03

def Operator.GT : Int := 0x04

def Operator.GE : Int := 0x05

def Operator.AND : Int := 0x07

def Operator.OR : Int := 0x08

/-- `Operator::toString` of the refined version: indexes the fixed array
`{"=", "!=", "<", "<=", ">", ">=", "AND", "OR"}` (8 entries) directly with
the operator value.  `none` models the out-of-bounds read (undefined
behaviour) that a value `≥ 8` or `< 0` causes. -/
def Operator.toString (op : Int) : Option String :=
  if op < 0 then none
  else ["=", "!=", "<", "<=", ">", ">=", "AND", "OR"].get? op.toNat

/-- The logical-operator constants of `where.cpp`'s `Where` class. -/
def WhereV1.AND : Int := 0

def WhereV1.OR : Int := 1

/-- The typed literal carried by a `Condition<T>`: the three instantiated
variants are `std::string`, `int` and `float`. -/
inductive Value where
  | str (s : String)
  | int (v : Int)
  | flt (q : Rat)
deriving DecidableEq, Repr

/-- `Condition<T>`'s data members. -/
structure Condition where
  column : String
  op : Int
  value : Value
deriving DecidableEq, Repr

/-- The comparison switch of `Condition<std::string>` (`std::string`'s
relational operators are lexicographic). -/
def switchStr (op : Int) (val lit : String) : Bool :=
  if op == Operator.EQ then val == lit
  else if op == Operator.NE then val != lit
  else if op == Operator.LT then decide (val < lit)
  else if op == Operator.LE then decide (val ≤ lit)
  else if op == Operator.GT then decide (lit < val)
  else if op == Operator.GE then decide (lit ≤ val)
  else false

/-- The comparison switch of `Condition<int>`. -/
def switchInt (op : Int) (val lit : Int) : Bool :=
  if op == Operator.EQ then val == lit
  else if op == Operator.NE then val != lit
  else if op == Operator.LT then decide (val < lit)
  else if op == Operator.LE then decide (val ≤ lit)
  else if op == Operator.GT then decide (lit < val)
  else if op == Operator.GE then decide (lit ≤ val)
  else false

/-- The comparison switch of `Condition<float>` (values as rationals). -/
def switchRat (op : Int) (val lit : Rat) : Bool :=
  if op == Operator.EQ then val == lit
  else if op == Operator.NE then val != lit
  else if op == Operator.LT then decide (val < lit)
  else if op == Operator.LE then decide (val ≤ lit)
  else if op == Operator.GT then decide (lit < val)
  else if op == Operator.GE then decide (lit ≤ val)
  else false

/-- `Condition<T>::eval` of the refined version, for the three
instantiations.  `getColumnValue` reads `row[header[column]]` — the map
lookup may grow the header (absent name ↦ index 0), and the vector
indexing is undefined behaviour when the index is out of bounds (`none`).
The int/float specialisations catch the conversion exceptions and return
`false`, which makes `eval`'s `else // conversion error` branch set the
result to `false`; any operator outside `EQ..GE` falls to the switch's
`default` branch, also `false`. -/
def Condition.eval (c : Condition) (header : Header) (row : Row) :
    Option Bool × Header :=
  let p := mapGet header c.column
  if p.1 < 0 then (none, p.2)
  else
    match row.get? p.1.toNat with
    | none => (none, p.2)
    | some cell =>
      match c.value with
      | .str s => (some (switchStr c.op cell s), p.2)
      | .int v =>
        match stoi cell with
        | some n => (some (switchInt c.op n v), p.2)
        | none => (some false, p.2)
      | .flt q =>
        match stod cell with
        | some x => (some (switchRat c.op x q), p.2)
        | none => (some false, p.2)

/-- `Condition<T>::eval` of `where.cpp`: same lookup, cell read and
comparison switch, but the numeric conversions are unprotected, so a
conversion failure propagates as an exception (`none`). -/
def Condition.evalV1 (c : Condition) (header : Header) (row : Row) :
    Option Bool × Header :=
  let p := mapGet header c.column
  if p.1 < 0 then (none, p.2)
  else
    match row.get? p.1.toNat with
    | none => (none, p.2)
    | some cell =>
      match c.value with
      | .str s => (some (switchStr c.op cell s), p.2)
      | .int v =>
        match stoi cell with
        | some n => (some (switchInt c.op n v), p.2)
        | none => (none, p.2)
      | .flt q =>
        match stod cell with
        | some x => (some (switchRat c.op x q), p.2)
        | none => (none, p.2)

/-- The `Where` clause: the conditions and the logical operators joining
them (`operators[i]` joins `conditions[i]` and `conditions[i+1]`). -/
structure Where where
  conditions : List Condition
  operators : List Int

/-- The `while` loop of the refined `Where::eval`, in lockstep form: at
operator position `i` the remaining operators are `operators.drop i` and
the conditions still reachable are `conditions.drop (i + 1)` (a
condition slot is consumed with every operator, evaluated or not, since
the loop always executes `op_index++`).  The position `i` is carried so
the returned trace — the list of condition indices on which
`conditions[op_index]->eval(header, row)` is called, in call order — uses
the original vector's indices.  `none` models the out-of-bounds
`conditions[op_index]` access that a too-short condition vector causes. -/
def Where.evalLoop (row : Row) : Nat → List Condition → List Int → Bool → Header →
    Option Bool × Header × List Nat
  | _, _, [], result, header => (some result, header, [])
  | i, conds, op :: orest, result, header =>
    if op == Operator.AND then
      -- If one operand of AND is false, skip :)
      if result then
        match conds with
        | [] => (none, header, [])
        | c :: crest =>
          match c.eval header row with
          | (none, h1) => (none, h1, [i + 1])
          | (some b, h1) =>
            let r := Where.evalLoop row (i + 1) crest orest b h1
            (r.1, r.2.1, (i + 1) :: r.2.2)
      else Where.evalLoop row (i + 1) conds.tail orest result header
    else -- OR
      -- If one operand of OR is true, stop here :)
      if result then (some true, header, [])
      else
        match conds with
        | [] => (none, header, [])
        | c :: crest =>
          match c.eval header row with
          | (none, h1) => (none, h1, [i + 1])
          | (some b, h1) =>
            let r := Where.evalLoop row (i + 1) crest orest b h1
            (r.1, r.2.1, (i + 1) :: r.2.2)

/-- `Where::eval(header, row)` of the refined version: evaluate
`conditions[0]` (undefined behaviour on an empty condition vector), then
run the operator loop.  Returns the result, the final header (the C++
header is passed by reference and can be grown by the map lookups), and
the trace of evaluated condition indices. -/
def Where.eval (w : Where) (header : Header) (row : Row) :
    Option Bool × Header × List Nat :=
  match w.conditions with
  | [] => (none, header, [])
  | c0 :: crest =>
    match c0.eval header row with
    | (none, h1) => (none, h1, [0])
    | (some b, h1) =>
      let r := Where.evalLoop row 0 crest w.operators b h1
      (r.1, r.2.1, 0 :: r.2.2)

mutual

/-- `where.cpp`'s recursive `Where::eval(header, row, op_index)`, lockstep
form: `conds` is `conditions.drop i`, `ops` is `operators.drop i`.  It
evaluates `conditions[op_index]` (out of bounds for an empty suffix:
`none`) and enters the loop. -/
def Where.evalFromV1 (row : Row) : Nat → List Condition → List Int → Header →
    Option Bool × Header × List Nat
  | _, [], _, header => (none, header, [])
  | i, c :: crest, ops, header =>
    match c.evalV1 header row with
    | (none, h1) => (none, h1, [i])
    | (some b, h1) =>
      let r := Where.loopV1 row i crest ops b h1
      (r.1, r.2.1, i :: r.2.2)

/-- The `while` loop of `where.cpp`'s `Where::eval`: on `AND` the next
condition is evaluated only when the running result is `true` (the
built-in `&&` short-circuit); on `OR` with a `true` running result the
`||` short-circuit skips the recursive call and the `break` returns
`true`, otherwise the whole remaining suffix is evaluated recursively and
the `break` returns its result.  `conds` is `conditions.drop (i + 1)`,
`ops` is `operators.drop i`. -/
def Where.loopV1 (row : Row) : Nat → List Condition → List Int → Bool → Header →
    Option Bool × Header × List Nat
  | _, _, [], result, header => (some result, header, [])
  | i, conds, op :: orest, result, header =>
    if op == WhereV1.AND then
      if result then
        match conds with
        | [] => (none, header, [])
        | c :: crest =>
          match c.evalV1 header row with
          | (none, h1) => (none, h1, [i + 1])
          | (some b, h1) =>
            let r := Where.loopV1 row (i + 1) crest orest b h1
            (r.1, r.2.1, (i + 1) :: r.2.2)
      else Where.loopV1 row (i + 1) conds.tail orest result header
    else -- OR
      if result then (some true, header, [])
      else Where.evalFromV1 row (i + 1) conds orest header

end

/-- `where.cpp`'s `Where::eval(header, row)` (default `op_index = 0`). -/
def Where.evalV1 (w : Where) (header : Header) (row : Row) :
    Option Bool × Header × List Nat :=
  Where.evalFromV1 row 0 w.conditions w.operators header

/-- The single boolean a condition evaluates to, when its evaluation is
defined (column index in bounds): projection of `Condition.eval`. -/
def condVal (c : Condition) (header : Header) (row : Row) : Bool :=
  ((c.eval header row).1).getD false

/-- The values of a list of conditions. -/
def condVals (conds : List Condition) (header : Header) (row : Row) : List Bool :=
  conds.map (fun c => condVal c header row)

/-- The column lookup of a condition succeeds: the column name is present
in the header and its index addresses a cell of the row. -/
def lookupOk (c : Condition) (header : Header) (row : Row) : Bool :=
  match List.lookup c.column header with
  | none => false
  | some idx => !(idx < 0) && (row.get? idx.toNat).isSome

/-- The column lookup succeeds and, for a numeric condition, the cell's
conversion succeeds as well. -/
def condOk (c : Condition) (header : Header) (row : Row) : Bool :=
  lookupOk c header row &&
    (match List.lookup c.column header with
     | none => false
     | some idx =>
       match row.get? idx.toNat with
       | none => false
       | some cell =>
         match c.value with
         | .str _ => true
         | .int _ => (stoi cell).isSome
         | .flt _ => (stod cell).isSome)

/-- Modelled from the spec: the operator sequence partitions the condition
values into maximal runs joined by the AND constant `andC` (the
"AND-groups"), the runs being separated by the other (OR) operators.
`v` is the first condition's value and each `(op, w)` pair is an operator
together with the value of the condition it joins on the right. -/
def splitGroups (andC : Int) : Bool → List (Int × Bool) → List (List Bool)
  | v, [] => [[v]]
  | v, (op, w) :: rest =>
    if op == andC then
      match splitGroups andC w rest with
      | [] => [[v]]
      | g :: gs => (v :: g) :: gs
    else [v] :: splitGroups andC w rest

/-- Modelled from the spec: the predicate is true iff at least one
AND-group evaluates entirely to true. -/
def specWhere (andC : Int) (v : Bool) (pairs : List (Int × Bool)) : Bool :=
  (splitGroups andC v pairs).any (fun g => g.all (fun b => b))

/-- Modelled from the spec: the whole predicate's value from the list of
condition values and the operator list (`ops[i]` joins `vals[i]` and
`vals[i+1]`). -/
def specEval (andC : Int) (vals : List Bool) (ops : List Int) : Bool :=
  specWhere andC (vals.headD false) (ops.zip vals.tail)

/-- Modelled from the spec: "the cell string must parse fully as that
numeric type" — `std::stoi` succeeds and consumes the entire string. -/
def specFullIntParse (s : String) : Bool :=
  match stoiParse s.data with
  | some (v, []) => !(v < intMin || intMax < v)
  | _ => false

lemma mapGet_of_lookup {header : Header} {k : String} {idx : Int}
    (hl : List.lookup k header = some idx) : mapGet header k = (idx, header) := by
  unfold mapGet; rw [hl]

/-- A successful column lookup leaves the header unchanged and produces a
defined boolean, namely `condVal`. -/
lemma condEval_of_lookupOk (c : Condition) (header : Header) (row : Row)
    (h : lookupOk c header row = true) :
    c.eval header row = (some (condVal c header row), header) := by
  unfold lookupOk at h
  cases hl : List.lookup c.column header with
  | none => rw [hl] at h; simp at h
  | some idx =>
    rw [hl] at h
    simp only [Bool.and_eq_true, Bool.not_eq_true', decide_eq_false_iff_not] at h
    obtain ⟨h1, h2⟩ := h
    obtain ⟨cell, hcell⟩ := Option.isSome_iff_exists.mp h2
    have hm := mapGet_of_lookup hl
    unfold condVal
    simp only [Condition.eval, hm, if_neg h1, hcell]
    cases c.value with
    | str s => rfl
    | int v => cases hs : stoi cell <;> simp [hs]
    | flt q => cases hs : stod cell <;> simp [hs]

/-- `condOk` additionally makes the two versions of the condition
evaluation agree: `where.cpp`'s unprotected version does not throw. -/
lemma condEvalV1_of_condOk (c : Condition) (header : Header) (row : Row)
    (h : condOk c header row = true) :
    c.evalV1 header row = (some (condVal c header row), header) := by
  unfold condOk at h
  simp only [Bool.and_eq_true] at h
  obtain ⟨hlk, hconv⟩ := h
  have heval := condEval_of_lookupOk c header row hlk
  unfold lookupOk at hlk
  cases hl : List.lookup c.column header with
  | none => rw [hl] at hlk; simp at hlk
  | some idx =>
    rw [hl] at hlk
    simp only [Bool.and_eq_true, Bool.not_eq_true', decide_eq_false_iff_not] at hlk
    obtain ⟨h1, h2⟩ := hlk
    obtain ⟨cell, hcell⟩ := Option.isSome_iff_exists.mp h2
    simp only [hl] at hconv
    simp only [hcell] at hconv
    have hm := mapGet_of_lookup hl
    rw [← heval]
    simp only [Condition.eval, Condition.evalV1, hm, if_neg h1, hcell]
    cases hv : c.value with
    | str s => rfl
    | int v =>
      simp only [hv] at hconv
      obtain ⟨n, hn⟩ := Option.isSome_iff_exists.mp hconv
      simp [hn]
    | flt q =>
      simp only [hv] at hconv
      obtain ⟨x, hx⟩ := Option.isSome_iff_exists.mp hconv
      simp [hx]

/-- Both condition evaluators only ever return the header produced by the
map lookup. -/
lemma condEval_snd (c : Condition) (header : Header) (row : Row) :
    (c.eval header row).2 = (mapGet header c.column).2 := by
  simp only [Condition.eval]
  split
  · rfl
  · split
    · rfl
    · split
      · rfl
      · split <;> rfl
      · split <;> rfl

lemma condEvalV1_snd (c : Condition) (header : Header) (row : Row) :
    (c.evalV1 header row).2 = (mapGet header c.column).2 := by
  simp only [Condition.evalV1]
  split
  · rfl
  · split
    · rfl
    · split
      · rfl
      · split <;> rfl
      · split <;> rfl

/-- When the column is present, the map lookup does not grow the header. -/
lemma mapGet_snd_of_isSome {header : Header} {k : String}
    (h : (List.lookup k header).isSome = true) : (mapGet header k).2 = header := by
  obtain ⟨idx, hl⟩ := Option.isSome_iff_exists.mp h
  rw [mapGet_of_lookup hl]

/-- The values joined by leading `andC` operators onto the first group. -/
def gTail (andC : Int) : List (Int × Bool) → List Bool
  | [] => []
  | (op, w) :: rest => if op == andC then w :: gTail andC rest else []

/-- The groups after the first OR. -/
def gRest (andC : Int) : List (Int × Bool) → List (List Bool)
  | [] => []
  | (op, w) :: rest => if op == andC then gRest andC rest else splitGroups andC w rest

lemma splitGroups_head (andC : Int) :
    ∀ (l : List (Int × Bool)) (v : Bool),
    splitGroups andC v l = (v :: gTail andC l) :: gRest andC l := by
  intro l
  induction l with
  | nil => intro v; rfl
  | cons p rest ih =>
    intro v
    obtain ⟨op, w⟩ := p
    cases hop : op == andC <;> simp [splitGroups, gTail, gRest, hop, ih w]

lemma specWhere_nil (andC : Int) (v : Bool) : specWhere andC v [] = v := by
  simp [specWhere, splitGroups]

/-- The recursive characterisation of "some AND-group is entirely true":
an `andC` operator folds the next value into the running group, any other
operator closes the group and disjoins the rest. -/
lemma specWhere_cons (andC : Int) (v : Bool) (op : Int) (w : Bool)
    (rest : List (Int × Bool)) :
    specWhere andC v ((op, w) :: rest) =
      if op == andC then specWhere andC (v && w) rest
      else (v || specWhere andC w rest) := by
  cases hop : op == andC with
  | true =>
    simp only [specWhere, splitGroups, hop, if_pos]
    rw [splitGroups_head andC rest w, splitGroups_head andC rest (v && w)]
    simp [Bool.and_assoc]
  | false => simp [specWhere, splitGroups, hop]

/-- The refined `while` loop computes the OR-of-AND-groups value of the
remaining suffix and leaves the header unchanged, whenever every remaining
condition's column lookup succeeds. -/
lemma evalLoop_spec (row : Row) (header : Header) :
    ∀ (ops : List Int) (conds : List Condition) (i : Nat) (result : Bool),
    (∀ c ∈ conds, lookupOk c header row = true) →
    conds.length = ops.length →
    (Where.evalLoop row i conds ops result header).1 =
        some (specWhere Operator.AND result (ops.zip (condVals conds header row))) ∧
    (Where.evalLoop row i conds ops result header).2.1 = header := by
  intro ops
  induction ops with
  | nil =>
    intro conds i result _ _
    simp [Where.evalLoop, specWhere_nil]
  | cons op orest ih =>
    intro conds i result hok hlen
    cases conds with
    | nil => simp at hlen
    | cons c crest =>
      have hc : lookupOk c header row = true := hok c (List.mem_cons_self c crest)
      have hcrest : ∀ c' ∈ crest, lookupOk c' header row = true :=
        fun c' hc' => hok c' (List.mem_cons_of_mem c hc')
      have hlen' : crest.length = orest.length := by
        simpa using hlen
      have heval := condEval_of_lookupOk c header row hc
      simp only [condVals, List.map_cons, List.zip_cons_cons, specWhere_cons]
      cases hop : op == Operator.AND with
      | true =>
        cases result with
        | true =>
          simp only [Where.evalLoop, hop, if_pos, heval]
          have := ih crest (i + 1) (condVal c header row) hcrest hlen'
          simpa [condVals] using this
        | false =>
          simp only [Where.evalLoop, hop, if_pos]
          have := ih crest (i + 1) false hcrest hlen'
          simpa [condVals] using this
      | false =>
        cases result with
        | true => simp [Where.evalLoop, hop]
        | false =>
          simp only [Where.evalLoop, hop, heval]
          have := ih crest (i + 1) (condVal c header row) hcrest hlen'
          simpa [condVals] using this

lemma lookupOk_of_condOk {c : Condition} {header : Header} {row : Row}
    (h : condOk c header row = true) : lookupOk c header row = true := by
  unfold condOk at h
  exact (Bool.and_eq_true _ _ |>.mp h).1

/-- `where.cpp`'s loop computes the same OR-of-AND-groups value (with its
own `AND = 0` constant) and leaves the header unchanged, whenever every
remaining condition's lookup and conversion succeed. -/
lemma loopV1_spec (row : Row) (header : Header) :
    ∀ (ops : List Int) (conds : List Condition) (i : Nat) (result : Bool),
    (∀ c ∈ conds, condOk c header row = true) →
    conds.length = ops.length →
    (Where.loopV1 row i conds ops result header).1 =
        some (specWhere WhereV1.AND result (ops.zip (condVals conds header row))) ∧
    (Where.loopV1 row i conds ops result header).2.1 = header := by
  intro ops
  induction ops with
  | nil =>
    intro conds i result _ _
    simp [Where.loopV1, specWhere_nil]
  | cons op orest ih =>
    intro conds i result hok hlen
    cases conds with
    | nil => simp at hlen
    | cons c crest =>
      have hc : condOk c header row = true := hok c (List.mem_cons_self c crest)
      have hcrest : ∀ c' ∈ crest, condOk c' header row = true :=
        fun c' hc' => hok c' (List.mem_cons_of_mem c hc')
      have hlen' : crest.length = orest.length := by simpa using hlen
      have heval := condEvalV1_of_condOk c header row hc
      simp only [condVals, List.map_cons, List.zip_cons_cons, specWhere_cons]
      cases hop : op == WhereV1.AND with
      | true =>
        cases result with
        | true =>
          simp only [Where.loopV1, hop, if_pos, heval]
          have := ih crest (i + 1) (condVal c header row) hcrest hlen'
          simpa [condVals] using this
        | false =>
          simp only [Where.loopV1, hop, if_pos]
          have := ih crest (i + 1) false hcrest hlen'
          simpa [condVals] using this
      | false =>
        cases result with
        | true => simp [Where.loopV1, hop]
        | false =>
          simp only [Where.loopV1, hop, Where.evalFromV1, heval]
          have := ih crest (i + 1) (condVal c header row) hcrest hlen'
          simpa [condVals] using this

/-- `where.cpp`'s recursive `eval` from any start position computes the
OR-of-AND-groups value of the remaining suffix. -/
lemma evalFromV1_spec (row : Row) (header : Header) (ops : List Int)
    (conds : List Condition) (i : Nat)
    (hok : ∀ c ∈ conds, condOk c header row = true)
    (hlen : conds.length = ops.length + 1) :
    (Where.evalFromV1 row i conds ops header).1 =
        some (specEval WhereV1.AND (condVals conds header row) ops) ∧
    (Where.evalFromV1 row i conds ops header).2.1 = header := by
  cases conds with
  | nil => simp at hlen
  | cons c crest =>
    have hc : condOk c header row = true := hok c (List.mem_cons_self c crest)
    have hcrest : ∀ c' ∈ crest, condOk c' header row = true :=
      fun c' hc' => hok c' (List.mem_cons_of_mem c hc')
    have hlen' : crest.length = ops.length := by simpa using hlen
    have heval := condEvalV1_of_condOk c header row hc
    simp only [Where.evalFromV1, heval, specEval, condVals, List.map_cons,
      List.headD_cons, List.tail_cons]
    have := loopV1_spec row header ops crest i (condVal c header row) hcrest hlen'
    simpa [condVals] using this

/-- The refined `Where::eval` computes the OR-of-AND-groups value of the
whole predicate. -/
lemma whereEval_spec (w : Where) (header : Header) (row : Row)
    (hok : ∀ c ∈ w.conditions, lookupOk c header row = true)
    (hlen : w.conditions.length = w.operators.length + 1) :
    (w.eval header row).1 =
        some (specEval Operator.AND (condVals w.conditions header row) w.operators) ∧
    (w.eval header row).2.1 = header := by
  obtain ⟨conds, ops⟩ := w
  cases conds with
  | nil => simp at hlen
  | cons c crest =>
    have hc : lookupOk c header row = true := hok c (List.mem_cons_self c crest)
    have hcrest : ∀ c' ∈ crest, lookupOk c' header row = true :=
      fun c' hc' => hok c' (List.mem_cons_of_mem c hc')
    have hlen' : crest.length = ops.length := by simpa using hlen
    have heval := condEval_of_lookupOk c header row hc
    simp only [Where.eval, heval, specEval, condVals, List.map_cons,
      List.headD_cons, List.tail_cons]
    have := evalLoop_spec row header ops crest 0 (condVal c header row) hcrest hlen'
    simpa [condVals] using this

/-- C1: for every predicate with N ≥ 1 conditions and N-1 operators (each
AND or OR) and every header and row for which each condition's lookup and
conversion succeed, `Where::eval(header, row)` returns true iff at least
one AND-group — the operator sequence partitioning the conditions into
maximal runs joined by AND, runs separated by OR — evaluates entirely to
true (`specEval`/`specWhere` is literally "some group is all true").
First conjunct: the refined evaluator; second: `where.cpp`'s recursive
evaluator with its own operator constants. -/
theorem claim_C1_or_of_and_groups :
    (∀ (w : Where) (header : Header) (row : Row),
      w.conditions ≠ [] →
      w.conditions.length = w.operators.length + 1 →
      (∀ op ∈ w.operators, op = Operator.AND ∨ op = Operator.OR) →
      (∀ c ∈ w.conditions, condOk c header row = true) →
      (w.eval header row).1 =
        some (specEval Operator.AND (condVals w.conditions header row) w.operators)) ∧
    (∀ (w : Where) (header : Header) (row : Row),
      w.conditions ≠ [] →
      w.conditions.length = w.operators.length + 1 →
      (∀ op ∈ w.operators, op = WhereV1.AND ∨ op = WhereV1.OR) →
      (∀ c ∈ w.conditions, condOk c header row = true) →
      (w.evalV1 header row).1 =
        some (specEval WhereV1.AND (condVals w.conditions header row) w.operators)) := by
  constructor
  · intro w header row _ hlen _ hok
    exact (whereEval_spec w header row
      (fun c hc => lookupOk_of_condOk (hok c hc)) hlen).1
  · intro w header row _ hlen _ hok
    exact (evalFromV1_spec row header w.operators w.conditions 0 hok hlen).1

/-- Witness for C1: the predicate `a = "x" AND n > 5 OR b = "y"` over the
row `["x", "7", "z"]` — the first AND-group is entirely true, so both
evaluators return `true`. -/
theorem claim_C1_or_of_and_groups_witness :
    (([⟨"a", Operator.EQ, .str "x"⟩, ⟨"n", Operator.GT, .int 5⟩,
       ⟨"b", Operator.EQ, .str "y"⟩] : List Condition).all
        (fun c => condOk c [("a", 0), ("n", 1), ("b", 2)] ["x", "7", "z"]) = true) ∧
    (Where.eval ⟨[⟨"a", Operator.EQ, .str "x"⟩, ⟨"n", Operator.GT, .int 5⟩,
        ⟨"b", Operator.EQ, .str "y"⟩], [Operator.AND, Operator.OR]⟩
        [("a", 0), ("n", 1), ("b", 2)] ["x", "7", "z"]).1 =
      some (specEval Operator.AND
        (condVals [⟨"a", Operator.EQ, .str "x"⟩, ⟨"n", Operator.GT, .int 5⟩,
          ⟨"b", Operator.EQ, .str "y"⟩] [("a", 0), ("n", 1), ("b", 2)] ["x", "7", "z"])
        [Operator.AND, Operator.OR]) ∧
    (Where.evalV1 ⟨[⟨"a", Operator.EQ, .str "x"⟩, ⟨"n", Operator.GT, .int 5⟩,
        ⟨"b", Operator.EQ, .str "y"⟩], [WhereV1.AND, WhereV1.OR]⟩
        [("a", 0), ("n", 1), ("b", 2)] ["x", "7", "z"]).1 =
      some (specEval WhereV1.AND
        (condVals [⟨"a", Operator.EQ, .str "x"⟩, ⟨"n", Operator.GT, .int 5⟩,
          ⟨"b", Operator.EQ, .str "y"⟩] [("a", 0), ("n", 1), ("b", 2)] ["x", "7", "z"])
        [WhereV1.AND, WhereV1.OR]) :=
  ⟨by decide,
   claim_C1_or_of_and_groups.1 _ _ _ (by decide) (by decide)
     (by decide) (by decide),
   claim_C1_or_of_and_groups.2 _ _ _ (by decide) (by decide)
     (by decide) (by decide)⟩

/-- C5 (code-bug evidence): evaluating a combinator with zero conditions
does not fail with an EmptyPredicate error — both versions immediately
index `conditions[0]` on an empty vector, which is undefined behaviour
(`none`); no error value exists anywhere in the code. -/
theorem claim_C5_empty_predicate (header : Header) (row : Row) (ops : List Int) :
    Where.eval ⟨[], ops⟩ header row = (none, header, []) ∧
    Where.evalV1 ⟨[], ops⟩ header row = (none, header, []) := by
  constructor
  · rfl
  · simp [Where.evalV1, Where.evalFromV1]

/-- C3 (code-bug evidence): a condition whose column (`"b"`) is absent
from the header is evaluated without any reported error: the map lookup
silently yields index 0 — additionally inserting `("b", 0)` into the
header — and the condition is compared against column 0's cell, here
matching the wrong column's value `"5"`.  Both versions. -/
theorem claim_C3_column_not_found :
    Condition.eval ⟨"b", Operator.EQ, .str "5"⟩ [("a", 0)] ["5"] =
      (some true, [("a", 0), ("b", 0)]) ∧
    Condition.evalV1 ⟨"b", Operator.EQ, .str "5"⟩ [("a", 0)] ["5"] =
      (some true, [("a", 0), ("b", 0)]) := by
  decide

/-- C8 (code-bug evidence): the display-token array is misaligned with
the operator constants: the six comparison operators map to their
canonical tokens, but `AND` (0x07) maps to `"OR"` (`ops[7]`) and `OR`
(0x08) reads past the end of the 8-element array (undefined behaviour,
`none`); the intended `"AND"` token sits at the unused index 6. -/
theorem claim_C8_toString_misaligned :
    Operator.toString Operator.EQ = some "=" ∧
    Operator.toString Operator.NE = some "!=" ∧
    Operator.toString Operator.LT = some "<" ∧
    Operator.toString Operator.LE = some "<=" ∧
    Operator.toString Operator.GT = some ">" ∧
    Operator.toString Operator.GE = some ">=" ∧
    Operator.toString Operator.AND = some "OR" ∧
    Operator.toString Operator.OR = none ∧
    Operator.toString 6 = some "AND" := by
  decide

lemma switchStr_default {op : Int} (h0 : op ≠ Operator.EQ) (h1 : op ≠ Operator.NE)
    (h2 : op ≠ Operator.LT) (h3 : op ≠ Operator.LE) (h4 : op ≠ Operator.GT)
    (h5 : op ≠ Operator.GE) (a b : String) : switchStr op a b = false := by
  simp [switchStr, beq_iff_eq, h0, h1, h2, h3, h4, h5]

lemma switchInt_default {op : Int} (h0 : op ≠ Operator.EQ) (h1 : op ≠ Operator.NE)
    (h2 : op ≠ Operator.LT) (h3 : op ≠ Operator.LE) (h4 : op ≠ Operator.GT)
    (h5 : op ≠ Operator.GE) (a b : Int) : switchInt op a b = false := by
  simp [switchInt, beq_iff_eq, h0, h1, h2, h3, h4, h5]

lemma switchRat_default {op : Int} (h0 : op ≠ Operator.EQ) (h1 : op ≠ Operator.NE)
    (h2 : op ≠ Operator.LT) (h3 : op ≠ Operator.LE) (h4 : op ≠ Operator.GT)
    (h5 : op ≠ Operator.GE) (a b : Rat) : switchRat op a b = false := by
  simp [switchRat, beq_iff_eq, h0, h1, h2, h3, h4, h5]

/-- C10: an operator value outside the six comparison operators falls
into the comparison switch's `default` branch: with successful lookup and
conversion the condition evaluates to `false` rather than failing. -/
theorem claim_C10_default_branch (c : Condition) (header : Header) (row : Row)
    (hop : c.op ≠ Operator.EQ ∧ c.op ≠ Operator.NE ∧ c.op ≠ Operator.LT ∧
      c.op ≠ Operator.LE ∧ c.op ≠ Operator.GT ∧ c.op ≠ Operator.GE)
    (hok : condOk c header row = true) :
    (c.eval header row).1 = some false := by
  obtain ⟨h0, h1, h2, h3, h4, h5⟩ := hop
  have hlk := lookupOk_of_condOk hok
  unfold lookupOk at hlk
  cases hl : List.lookup c.column header with
  | none => rw [hl] at hlk; simp at hlk
  | some idx =>
    rw [hl] at hlk
    simp only [Bool.and_eq_true, Bool.not_eq_true', decide_eq_false_iff_not] at hlk
    obtain ⟨hneg, hsome⟩ := hlk
    obtain ⟨cell, hcell⟩ := Option.isSome_iff_exists.mp hsome
    have hm := mapGet_of_lookup hl
    simp only [Condition.eval, hm, if_neg hneg, hcell]
    cases hv : c.value with
    | str s => simp [switchStr_default h0 h1 h2 h3 h4 h5]
    | int v => cases hs : stoi cell <;> simp [hs, switchInt_default h0 h1 h2 h3 h4 h5]
    | flt q => cases hs : stod cell <;> simp [hs, switchRat_default h0 h1 h2 h3 h4 h5]

/-- Witness for C10: the operator value 9 (not a comparison operator) on
a string condition with a valid lookup evaluates to `false`. -/
theorem claim_C10_default_branch_witness :
    ((9 : Int) ≠ Operator.EQ ∧ (9 : Int) ≠ Operator.NE ∧ (9 : Int) ≠ Operator.LT ∧
      (9 : Int) ≠ Operator.LE ∧ (9 : Int) ≠ Operator.GT ∧ (9 : Int) ≠ Operator.GE) ∧
    (Condition.eval ⟨"a", 9, .str "y"⟩ [("a", 0)] ["y"]).1 = some false :=
  ⟨by decide, claim_C10_default_branch ⟨"a", 9, .str "y"⟩ [("a", 0)] ["y"]
    (by decide) (by decide)⟩

/-- C2 counterexample: the cell `"12ab"` does not parse fully as an
integer, yet the condition `a = 12` evaluates to `true` rather than
`false`: `std::stoi` converts the longest numeric prefix (`12`) and
ignores the trailing junk, so "does not parse fully ⟹ condition is
false" fails on the refined evaluator. -/
theorem claim_C2_counterexample :
    specFullIntParse "12ab" = false ∧
    (Condition.eval ⟨"a", Operator.EQ, .int 12⟩ [("a", 0)] ["12ab"]).1 = some true := by
  decide

/-- C2 amended: the refined `Condition::eval` resolves to `false` — and
never surfaces a failure — exactly when the cell's numeric conversion
itself fails (no numeric prefix at all, or a value out of range); a cell
that merely fails to parse fully is converted from its numeric prefix. -/
theorem claim_C2_conversion_failure (column : String) (op : Int)
    (header : Header) (row : Row) (cell : String)
    (hpos : ¬ (mapGet header column).1 < 0)
    (hcell : row.get? (mapGet header column).1.toNat = some cell) :
    (∀ v : Int, stoi cell = none →
      (Condition.eval ⟨column, op, Value.int v⟩ header row).1 = some false) ∧
    (∀ q : Rat, stod cell = none →
      (Condition.eval ⟨column, op, Value.flt q⟩ header row).1 = some false) := by
  have hcell' : row[(mapGet header column).1.toNat]? = some cell := by
    rw [← List.get?_eq_getElem?]; exact hcell
  constructor
  · intro v hs
    simp [Condition.eval, hpos, hcell', hs]
  · intro q hs
    simp [Condition.eval, hpos, hcell', hs]

/-- Witness for C2 (amended): the unparseable cell `"xy"` makes both an
integer and a float condition evaluate to `false`. -/
theorem claim_C2_conversion_failure_witness :
    (List.get? (["xy"] : Row) (mapGet [("a", 0)] "a").1.toNat = some "xy") ∧
    (Condition.eval ⟨"a", Operator.EQ, Value.int 12⟩ [("a", 0)] ["xy"]).1 = some false ∧
    (Condition.eval ⟨"a", Operator.EQ, Value.flt 3⟩ [("a", 0)] ["xy"]).1 = some false :=
  ⟨by decide,
   (claim_C2_conversion_failure "a" Operator.EQ [("a", 0)] ["xy"] "xy"
     (by decide) (by decide)).1 12 (by decide),
   (claim_C2_conversion_failure "a" Operator.EQ [("a", 0)] ["xy"] "xy"
     (by decide) (by decide)).2 3 (by decide)⟩

/-- When every remaining condition's column is present in the header, the
refined loop returns the header unchanged (no lookup inserts anything). -/
lemma evalLoop_header (row : Row) (header : Header) :
    ∀ (ops : List Int) (conds : List Condition) (i : Nat) (result : Bool),
    (∀ c ∈ conds, (List.lookup c.column header).isSome = true) →
    (Where.evalLoop row i conds ops result header).2.1 = header := by
  intro ops
  induction ops with
  | nil => intro conds i result _; rfl
  | cons op orest ih =>
    intro conds i result hok
    cases conds with
    | nil =>
      have hnil : ∀ c ∈ ([] : List Condition), (List.lookup c.column header).isSome = true := by
        intro c hc; cases hc
      cases hop : op == Operator.AND with
      | true =>
        cases result with
        | true => simp [Where.evalLoop, hop]
        | false => simpa [Where.evalLoop, hop] using ih [] (i + 1) false hnil
      | false =>
        cases result with
        | true => simp [Where.evalLoop, hop]
        | false => simp [Where.evalLoop, hop]
    | cons c crest =>
      have hc : (List.lookup c.column header).isSome = true :=
        hok c (List.mem_cons_self c crest)
      have hcrest : ∀ c' ∈ crest, (List.lookup c'.column header).isSome = true :=
        fun c' h => hok c' (List.mem_cons_of_mem c h)
      have hsnd : (c.eval header row).2 = header := by
        rw [condEval_snd, mapGet_snd_of_isSome hc]
      cases hop : op == Operator.AND with
      | true =>
        cases result with
        | true =>
          cases he : c.eval header row with
          | mk r1 h1 =>
            have hh : h1 = header := by rw [← hsnd, he]
            subst hh
            cases r1 with
            | none => simp [Where.evalLoop, hop, he]
            | some b => simpa [Where.evalLoop, hop, he] using ih crest (i + 1) b hcrest
        | false => simpa [Where.evalLoop, hop] using ih crest (i + 1) false hcrest
      | false =>
        cases result with
        | true => simp [Where.evalLoop, hop]
        | false =>
          cases he : c.eval header row with
          | mk r1 h1 =>
            have hh : h1 = header := by rw [← hsnd, he]
            subst hh
            cases r1 with
            | none => simp [Where.evalLoop, hop, he]
            | some b => simpa [Where.evalLoop, hop, he] using ih crest (i + 1) b hcrest

/-- Same for `where.cpp`'s mutual recursion. -/
lemma loopV1_header (row : Row) (header : Header) :
    ∀ (ops : List Int) (conds : List Condition) (i : Nat) (result : Bool),
    (∀ c ∈ conds, (List.lookup c.column header).isSome = true) →
    (Where.loopV1 row i conds ops result header).2.1 = header := by
  intro ops
  induction ops with
  | nil => intro conds i result _; simp [Where.loopV1]
  | cons op orest ih =>
    intro conds i result hok
    have hfrom : ∀ (j : Nat),
        (Where.evalFromV1 row j conds orest header).2.1 = header := by
      intro j
      cases conds with
      | nil => simp [Where.evalFromV1]
      | cons c crest =>
        have hc : (List.lookup c.column header).isSome = true :=
          hok c (List.mem_cons_self c crest)
        have hcrest : ∀ c' ∈ crest, (List.lookup c'.column header).isSome = true :=
          fun c' h => hok c' (List.mem_cons_of_mem c h)
        have hsnd : (c.evalV1 header row).2 = header := by
          rw [condEvalV1_snd, mapGet_snd_of_isSome hc]
        cases he : c.evalV1 header row with
        | mk r1 h1 =>
          have hh : h1 = header := by rw [← hsnd, he]
          subst hh
          cases r1 with
          | none => simp [Where.evalFromV1, he]
          | some b => simpa [Where.evalFromV1, he] using ih crest j b hcrest
    cases conds with
    | nil =>
      have hnil : ∀ c ∈ ([] : List Condition), (List.lookup c.column header).isSome = true := by
        intro c hc; cases hc
      cases hop : op == WhereV1.AND with
      | true =>
        cases result with
        | true => simp [Where.loopV1, hop]
        | false => simpa [Where.loopV1, hop] using ih [] (i + 1) false hnil
      | false =>
        cases result with
        | true => simp [Where.loopV1, hop]
        | false => simpa [Where.loopV1, hop] using hfrom (i + 1)
    | cons c crest =>
      have hc : (List.lookup c.column header).isSome = true :=
        hok c (List.mem_cons_self c crest)
      have hcrest : ∀ c' ∈ crest, (List.lookup c'.column header).isSome = true :=
        fun c' h => hok c' (List.mem_cons_of_mem c h)
      have hsnd : (c.evalV1 header row).2 = header := by
        rw [condEvalV1_snd, mapGet_snd_of_isSome hc]
      cases hop : op == WhereV1.AND with
      | true =>
        cases result with
        | true =>
          cases he : c.evalV1 header row with
          | mk r1 h1 =>
            have hh : h1 = header := by rw [← hsnd, he]
            subst hh
            cases r1 with
            | none => simp [Where.loopV1, hop, he]
            | some b => simpa [Where.loopV1, hop, he] using ih crest (i + 1) b hcrest
        | false => simpa [Where.loopV1, hop] using ih crest (i + 1) false hcrest
      | false =>
        cases result with
        | true => simp [Where.loopV1, hop]
        | false => simpa [Where.loopV1, hop] using hfrom (i + 1)

/-- C4 counterexample: `Where::eval` is not free of side effects: with the
single condition `b = "x"` and a header containing only column `a`, the
evaluation grows the header — `header["b"]` inserts `("b", 0)`. -/
theorem claim_C4_counterexample :
    (Where.eval ⟨[⟨"b", Operator.EQ, .str "x"⟩], []⟩ [("a", 0)] ["x"]).2.1 ≠
      [("a", 0)] := by
  decide

/-- C4 amended: when every condition's column name is present in the
header, evaluation leaves the header unchanged (the row, conditions and
operators are read-only throughout the code and are immutable arguments
of this embedding); when a column is absent, `std::map::operator[]`
inserts that name with index 0 into the header.  Both versions. -/
theorem claim_C4_header_frame (w : Where) (header : Header) (row : Row)
    (hok : ∀ c ∈ w.conditions, (List.lookup c.column header).isSome = true) :
    (w.eval header row).2.1 = header ∧ (w.evalV1 header row).2.1 = header := by
  obtain ⟨conds, ops⟩ := w
  cases conds with
  | nil => exact ⟨rfl, by simp [Where.evalV1, Where.evalFromV1]⟩
  | cons c crest =>
    have hc : (List.lookup c.column header).isSome = true :=
      hok c (List.mem_cons_self c crest)
    have hcrest : ∀ c' ∈ crest, (List.lookup c'.column header).isSome = true :=
      fun c' h => hok c' (List.mem_cons_of_mem c h)
    constructor
    · have hsnd : (c.eval header row).2 = header := by
        rw [condEval_snd, mapGet_snd_of_isSome hc]
      cases he : c.eval header row with
      | mk r1 h1 =>
        have hh : h1 = header := by rw [← hsnd, he]
        rw [hh] at he
        cases r1 with
        | none => simp [Where.eval, he]
        | some b =>
          simpa [Where.eval, he] using evalLoop_header row header ops crest 0 b hcrest
    · have hsnd : (c.evalV1 header row).2 = header := by
        rw [condEvalV1_snd, mapGet_snd_of_isSome hc]
      cases he : c.evalV1 header row with
      | mk r1 h1 =>
        have hh : h1 = header := by rw [← hsnd, he]
        rw [hh] at he
        cases r1 with
        | none => simp [Where.evalV1, Where.evalFromV1, he]
        | some b =>
          simpa [Where.evalV1, Where.evalFromV1, he] using
            loopV1_header row header ops crest 0 b hcrest

/-- Witness for C4 (amended): a predicate whose only column is present
leaves the header exactly as it was, in both versions. -/
theorem claim_C4_header_frame_witness :
    (([⟨"a", Operator.EQ, .str "x"⟩] : List Condition).all
      (fun c => (List.lookup c.column ([("a", 0)] : Header)).isSome) = true) ∧
    (Where.eval ⟨[⟨"a", Operator.EQ, .str "x"⟩], []⟩ [("a", 0)] ["x"]).2.1 = [("a", 0)] ∧
    (Where.evalV1 ⟨[⟨"a", Operator.EQ, .str "x"⟩], []⟩ [("a", 0)] ["x"]).2.1 = [("a", 0)] :=
  ⟨by decide,
   (claim_C4_header_frame ⟨[⟨"a", Operator.EQ, .str "x"⟩], []⟩ [("a", 0)] ["x"]
     (by decide)).1,
   (claim_C4_header_frame ⟨[⟨"a", Operator.EQ, .str "x"⟩], []⟩ [("a", 0)] ["x"]
     (by decide)).2⟩

/-- With only AND operators there is a single AND-group: the spec value is
the conjunction of all condition values. -/
lemma specWhere_all_and (andC : Int) :
    ∀ (pairs : List (Int × Bool)) (v : Bool),
    (∀ p ∈ pairs, p.1 = andC) →
    specWhere andC v pairs = (v && (pairs.map Prod.snd).all (fun b => b)) := by
  intro pairs
  induction pairs with
  | nil => intro v _; simp [specWhere_nil]
  | cons p rest ih =>
    intro v hall
    obtain ⟨op, w⟩ := p
    have hop : op = andC := hall (op, w) (List.mem_cons_self _ _)
    rw [specWhere_cons]
    simp only [hop, beq_self_eq_true, if_true, List.map_cons, List.all_cons]
    rw [ih (v && w) (fun p hp => hall p (List.mem_cons_of_mem _ hp))]
    simp [Bool.and_assoc]

/-- With no AND operators every AND-group is a single condition: the spec
value is the disjunction of all condition values. -/
lemma specWhere_all_or (andC : Int) :
    ∀ (pairs : List (Int × Bool)) (v : Bool),
    (∀ p ∈ pairs, p.1 ≠ andC) →
    specWhere andC v pairs = (v || (pairs.map Prod.snd).any (fun b => b)) := by
  intro pairs
  induction pairs with
  | nil => intro v _; simp [specWhere_nil]
  | cons p rest ih =>
    intro v hall
    obtain ⟨op, w⟩ := p
    have hop : op ≠ andC := hall (op, w) (List.mem_cons_self _ _)
    rw [specWhere_cons]
    simp only [beq_eq_false_iff_ne.mpr hop, if_false, List.map_cons, List.any_cons]
    rw [ih w (fun p hp => hall p (List.mem_cons_of_mem _ hp))]
    simp [Bool.or_assoc]

/-- In an all-AND loop, every condition index on the trace lies past the
loop start and only follows an all-true prefix of condition values: once
a condition is false, nothing after it is evaluated. -/
lemma evalLoop_and_trace (row : Row) (header : Header) :
    ∀ (ops : List Int) (conds : List Condition) (i : Nat) (result : Bool),
    (∀ op ∈ ops, op = Operator.AND) →
    (∀ c ∈ conds, lookupOk c header row = true) →
    ∀ j ∈ (Where.evalLoop row i conds ops result header).2.2,
      result = true ∧ ∃ k, j = i + 1 + k ∧
        ((condVals conds header row).take k).all (fun b => b) = true := by
  intro ops
  induction ops with
  | nil => intro conds i result _ _ j hj; simp [Where.evalLoop] at hj
  | cons op orest ih =>
    intro conds i result hand hok j hj
    have hop : op = Operator.AND := hand op (List.mem_cons_self _ _)
    have horest : ∀ o ∈ orest, o = Operator.AND :=
      fun o ho => hand o (List.mem_cons_of_mem _ ho)
    cases conds with
    | nil =>
      have hnil : ∀ c ∈ ([] : List Condition), lookupOk c header row = true := by
        intro c hc; cases hc
      cases result with
      | true => simp [Where.evalLoop, hop] at hj
      | false =>
        simp only [Where.evalLoop, hop, beq_self_eq_true, if_true, List.tail_nil] at hj
        exact absurd (ih [] (i + 1) false horest hnil j hj).1 (by simp)
    | cons c crest =>
      have hc : lookupOk c header row = true := hok c (List.mem_cons_self c crest)
      have hcrest : ∀ c' ∈ crest, lookupOk c' header row = true :=
        fun c' h => hok c' (List.mem_cons_of_mem c h)
      have heval := condEval_of_lookupOk c header row hc
      cases result with
      | false =>
        simp only [Where.evalLoop, hop, beq_self_eq_true, if_true, List.tail_cons] at hj
        exact absurd (ih crest (i + 1) false horest hcrest j hj).1 (by simp)
      | true =>
        simp only [Where.evalLoop, hop, beq_self_eq_true, if_true, heval] at hj
        rcases List.mem_cons.mp hj with rfl | hj'
        · exact ⟨rfl, 0, by omega, by simp⟩
        · obtain ⟨hcv, k, hk, htake⟩ :=
            ih crest (i + 1) (condVal c header row) horest hcrest j hj'
          refine ⟨rfl, k + 1, by omega, ?_⟩
          simp [condVals, List.take_succ_cons, hcv]
          simpa [condVals] using htake

/-- C6: for a predicate whose operators are all AND, the refined `eval`
returns the conjunction of all condition values, and every condition
index it evaluates (the trace) is preceded only by true conditions — so
the conditions after the first false one are never evaluated, and in
particular a conversion failure in a skipped condition is never
triggered. -/
theorem claim_C6_and_short_circuit (w : Where) (header : Header) (row : Row)
    (hne : w.conditions ≠ [])
    (hlen : w.conditions.length = w.operators.length + 1)
    (hand : ∀ op ∈ w.operators, op = Operator.AND)
    (hok : ∀ c ∈ w.conditions, lookupOk c header row = true) :
    (w.eval header row).1 =
      some ((condVals w.conditions header row).all (fun b => b)) ∧
    ∀ j ∈ (w.eval header row).2.2,
      ((condVals w.conditions header row).take j).all (fun b => b) = true := by
  constructor
  · have hval := (whereEval_spec w header row hok hlen).1
    rw [hval]
    have hpairs : ∀ p ∈ w.operators.zip (condVals w.conditions header row).tail,
        p.1 = Operator.AND := by
      intro p hp
      obtain ⟨o, b⟩ := p
      exact hand o (List.of_mem_zip hp).1
    have hlen2 : (condVals w.conditions header row).tail.length ≤ w.operators.length := by
      simp [condVals, hlen]
    rw [specEval, specWhere_all_and Operator.AND _ _ hpairs,
      List.map_snd_zip _ _ hlen2]
    cases hv : condVals w.conditions header row with
    | nil =>
      simp only [condVals] at hv
      exact absurd (List.map_eq_nil_iff.mp hv) hne
    | cons v vt => simp
  · intro j hj
    obtain ⟨conds, ops⟩ := w
    cases conds with
    | nil => exact absurd rfl hne
    | cons c crest =>
      have hc : lookupOk c header row = true := hok c (List.mem_cons_self c crest)
      have hcrest : ∀ c' ∈ crest, lookupOk c' header row = true :=
        fun c' h => hok c' (List.mem_cons_of_mem c h)
      have heval := condEval_of_lookupOk c header row hc
      simp only [Where.eval, heval] at hj
      rcases List.mem_cons.mp hj with rfl | hj'
      · simp
      · obtain ⟨hcv, k, hk, htake⟩ :=
          evalLoop_and_trace row header ops crest 0 (condVal c header row)
            hand hcrest j hj'
        subst hk
        simp only [condVals, List.map_cons]
        rw [show 0 + 1 + k = k + 1 by omega, List.take_succ_cons]
        simp only [List.all_cons, hcv, Bool.true_and]
        simpa [condVals] using htake

/-- Witness for C6: in `a = "x" AND n > 5 AND b = "y"` over the row
`["z", "BAD", "y"]` the first condition is already false, so the result
is `false` and — per the trace — only condition 0 is evaluated: the
unconvertible cell `"BAD"` of the second condition is never touched. -/
theorem claim_C6_and_short_circuit_witness :
    (([⟨"a", Operator.EQ, .str "x"⟩, ⟨"n", Operator.GT, .int 5⟩,
       ⟨"b", Operator.EQ, .str "y"⟩] : List Condition).all
        (fun c => lookupOk c [("a", 0), ("n", 1), ("b", 2)] ["z", "BAD", "y"]) = true) ∧
    (Where.eval ⟨[⟨"a", Operator.EQ, .str "x"⟩, ⟨"n", Operator.GT, .int 5⟩,
        ⟨"b", Operator.EQ, .str "y"⟩], [Operator.AND, Operator.AND]⟩
        [("a", 0), ("n", 1), ("b", 2)] ["z", "BAD", "y"]).1 =
      some ((condVals [⟨"a", Operator.EQ, .str "x"⟩, ⟨"n", Operator.GT, .int 5⟩,
        ⟨"b", Operator.EQ, .str "y"⟩] [("a", 0), ("n", 1), ("b", 2)]
        ["z", "BAD", "y"]).all (fun b => b)) :=
  ⟨by decide,
   (claim_C6_and_short_circuit ⟨[⟨"a", Operator.EQ, .str "x"⟩,
      ⟨"n", Operator.GT, .int 5⟩, ⟨"b", Operator.EQ, .str "y"⟩],
      [Operator.AND, Operator.AND]⟩ [("a", 0), ("n", 1), ("b", 2)] ["z", "BAD", "y"]
      (by decide) (by decide) (by decide) (by decide)).1⟩

/-- In an all-OR loop, every condition index on the trace only follows an
all-false prefix of condition values: evaluation stops at the first true
condition and nothing after it is evaluated. -/
lemma evalLoop_or_trace (row : Row) (header : Header) :
    ∀ (ops : List Int) (conds : List Condition) (i : Nat) (result : Bool),
    (∀ op ∈ ops, op = Operator.OR) →
    (∀ c ∈ conds, lookupOk c header row = true) →
    ∀ j ∈ (Where.evalLoop row i conds ops result header).2.2,
      result = false ∧ ∃ k, j = i + 1 + k ∧
        ((condVals conds header row).take k).all (fun b => !b) = true := by
  intro ops
  induction ops with
  | nil => intro conds i result _ _ j hj; simp [Where.evalLoop] at hj
  | cons op orest ih =>
    intro conds i result hor hok j hj
    have hop : op = Operator.OR := hor op (List.mem_cons_self _ _)
    have horest : ∀ o ∈ orest, o = Operator.OR :=
      fun o ho => hor o (List.mem_cons_of_mem _ ho)
    have hne : (op == Operator.AND) = false := by
      rw [hop]; decide
    cases result with
    | true => simp [Where.evalLoop, hne] at hj
    | false =>
      cases conds with
      | nil => simp [Where.evalLoop, hne] at hj
      | cons c crest =>
        have hc : lookupOk c header row = true := hok c (List.mem_cons_self c crest)
        have hcrest : ∀ c' ∈ crest, lookupOk c' header row = true :=
          fun c' h => hok c' (List.mem_cons_of_mem c h)
        have heval := condEval_of_lookupOk c header row hc
        simp only [Where.evalLoop, hne, Bool.false_eq_true, if_false, heval] at hj
        rcases List.mem_cons.mp hj with rfl | hj'
        · exact ⟨rfl, 0, by omega, by simp⟩
        · obtain ⟨hcv, k, hk, htake⟩ :=
            ih crest (i + 1) (condVal c header row) horest hcrest j hj'
          refine ⟨rfl, k + 1, by omega, ?_⟩
          simp only [condVals, List.map_cons, List.take_succ_cons, List.all_cons, hcv]
          simpa [condVals] using htake

/-- C7: for a predicate whose operators are all OR, the refined `eval`
returns the disjunction of all condition values, and every condition
index it evaluates (the trace) is preceded only by false conditions — so
evaluation stops at the first true condition and nothing after it is
evaluated. -/
theorem claim_C7_or_short_circuit (w : Where) (header : Header) (row : Row)
    (hne : w.conditions ≠ [])
    (hlen : w.conditions.length = w.operators.length + 1)
    (hor : ∀ op ∈ w.operators, op = Operator.OR)
    (hok : ∀ c ∈ w.conditions, lookupOk c header row = true) :
    (w.eval header row).1 =
      some ((condVals w.conditions header row).any (fun b => b)) ∧
    ∀ j ∈ (w.eval header row).2.2,
      ((condVals w.conditions header row).take j).all (fun b => !b) = true := by
  constructor
  · have hval := (whereEval_spec w header row hok hlen).1
    rw [hval]
    have hpairs : ∀ p ∈ w.operators.zip (condVals w.conditions header row).tail,
        p.1 ≠ Operator.AND := by
      intro p hp
      obtain ⟨o, b⟩ := p
      have ho : o = Operator.OR := hor o (List.of_mem_zip hp).1
      rw [ho]
      show Operator.OR ≠ Operator.AND
      decide
    have hlen2 : (condVals w.conditions header row).tail.length ≤ w.operators.length := by
      simp [condVals, hlen]
    rw [specEval, specWhere_all_or Operator.AND _ _ hpairs,
      List.map_snd_zip _ _ hlen2]
    cases hv : condVals w.conditions header row with
    | nil =>
      simp only [condVals] at hv
      exact absurd (List.map_eq_nil_iff.mp hv) hne
    | cons v vt => simp
  · intro j hj
    obtain ⟨conds, ops⟩ := w
    cases conds with
    | nil => exact absurd rfl hne
    | cons c crest =>
      have hc : lookupOk c header row = true := hok c (List.mem_cons_self c crest)
      have hcrest : ∀ c' ∈ crest, lookupOk c' header row = true :=
        fun c' h => hok c' (List.mem_cons_of_mem c h)
      have heval := condEval_of_lookupOk c header row hc
      simp only [Where.eval, heval] at hj
      rcases List.mem_cons.mp hj with rfl | hj'
      · simp
      · obtain ⟨hcv, k, hk, htake⟩ :=
          evalLoop_or_trace row header ops crest 0 (condVal c header row)
            hor hcrest j hj'
        subst hk
        simp only [condVals, List.map_cons]
        rw [show 0 + 1 + k = k + 1 by omega, List.take_succ_cons]
        simp only [List.all_cons, hcv, Bool.not_false, Bool.true_and]
        simpa [condVals] using htake

/-- Witness for C7: in `a = "x" OR n > 5 OR b = "y"` over the row
`["x", "BAD", "y"]` the first condition is already true, so the result is
`true` and — per the trace — only condition 0 is evaluated: the
unconvertible cell `"BAD"` is never touched. -/
theorem claim_C7_or_short_circuit_witness :
    (([⟨"a", Operator.EQ, .str "x"⟩, ⟨"n", Operator.GT, .int 5⟩,
       ⟨"b", Operator.EQ, .str "y"⟩] : List Condition).all
        (fun c => lookupOk c [("a", 0), ("n", 1), ("b", 2)] ["x", "BAD", "y"]) = true) ∧
    (Where.eval ⟨[⟨"a", Operator.EQ, .str "x"⟩, ⟨"n", Operator.GT, .int 5⟩,
        ⟨"b", Operator.EQ, .str "y"⟩], [Operator.OR, Operator.OR]⟩
        [("a", 0), ("n", 1), ("b", 2)] ["x", "BAD", "y"]).1 =
      some ((condVals [⟨"a", Operator.EQ, .str "x"⟩, ⟨"n", Operator.GT, .int 5⟩,
        ⟨"b", Operator.EQ, .str "y"⟩] [("a", 0), ("n", 1), ("b", 2)]
        ["x", "BAD", "y"]).any (fun b => b)) :=
  ⟨by decide,
   (claim_C7_or_short_circuit ⟨[⟨"a", Operator.EQ, .str "x"⟩,
      ⟨"n", Operator.GT, .int 5⟩, ⟨"b", Operator.EQ, .str "y"⟩],
      [Operator.OR, Operator.OR]⟩ [("a", 0), ("n", 1), ("b", 2)] ["x", "BAD", "y"]
      (by decide) (by decide) (by decide) (by decide)).1⟩

/-- Unconditionally (even on lookup failures or undefined behaviour), the
loop's trace has at most one entry per remaining operator, all entries
lie strictly past the loop position, and the trace is strictly
increasing: the loop advances through the operator sequence and never
revisits a condition. -/
lemma evalLoop_trace_bound (row : Row) :
    ∀ (ops : List Int) (conds : List Condition) (i : Nat) (result : Bool)
      (header : Header),
    (Where.evalLoop row i conds ops result header).2.2.length ≤ ops.length ∧
    (∀ j ∈ (Where.evalLoop row i conds ops result header).2.2, i < j) ∧
    List.Chain' (· < ·) (Where.evalLoop row i conds ops result header).2.2 := by
  intro ops
  induction ops with
  | nil => intro conds i result header; simp [Where.evalLoop]
  | cons op orest ih =>
    intro conds i result header
    cases hop : op == Operator.AND with
    | true =>
      cases result with
      | true =>
        cases conds with
        | nil => simp [Where.evalLoop, hop]
        | cons c crest =>
          cases he : c.eval header row with
          | mk r1 h1 =>
            cases r1 with
            | none => simp [Where.evalLoop, hop, he]
            | some b =>
              obtain ⟨ihl, ihe, ihc⟩ := ih crest (i + 1) b h1
              simp only [Where.evalLoop, hop, if_true, he]
              refine ⟨by simpa using ihl, ?_, ?_⟩
              · intro j hj
                rcases List.mem_cons.mp hj with rfl | hj'
                · omega
                · exact lt_trans (by omega) (ihe j hj')
              · rw [List.chain'_cons']
                exact ⟨fun y hy => ihe y (List.mem_of_mem_head? hy), ihc⟩
      | false =>
        obtain ⟨ihl, ihe, ihc⟩ := ih conds.tail (i + 1) false header
        simp only [Where.evalLoop, hop, if_true, Bool.false_eq_true, if_false]
        exact ⟨le_trans ihl (by rw [List.length_cons]; omega),
          fun j hj => lt_trans (by omega) (ihe j hj), ihc⟩
    | false =>
      cases result with
      | true => simp [Where.evalLoop, hop]
      | false =>
        cases conds with
        | nil => simp [Where.evalLoop, hop]
        | cons c crest =>
          cases he : c.eval header row with
          | mk r1 h1 =>
            cases r1 with
            | none => simp [Where.evalLoop, hop, he]
            | some b =>
              obtain ⟨ihl, ihe, ihc⟩ := ih crest (i + 1) b h1
              simp only [Where.evalLoop, hop, Bool.false_eq_true, if_false, he]
              refine ⟨by simpa using ihl, ?_, ?_⟩
              · intro j hj
                rcases List.mem_cons.mp hj with rfl | hj'
                · omega
                · exact lt_trans (by omega) (ihe j hj')
              · rw [List.chain'_cons']
                exact ⟨fun y hy => ihe y (List.mem_of_mem_head? hy), ihc⟩

/-- C9: for every well-formed predicate (N ≥ 1 conditions, N − 1
operators) and every header and row, the evaluation — a total function in
this embedding — performs at most N condition evaluations, and its trace
of evaluated positions is strictly increasing: no position is ever
revisited. -/
theorem claim_C9_eval_bounded (w : Where) (header : Header) (row : Row)
    (hne : w.conditions ≠ [])
    (hlen : w.conditions.length = w.operators.length + 1) :
    (w.eval header row).2.2.length ≤ w.conditions.length ∧
    List.Chain' (· < ·) (w.eval header row).2.2 := by
  obtain ⟨conds, ops⟩ := w
  cases conds with
  | nil => exact absurd rfl hne
  | cons c crest =>
    have hlen2 : crest.length + 1 = ops.length + 1 := by simpa using hlen
    cases he : c.eval header row with
    | mk r1 h1 =>
      cases r1 with
      | none =>
        simp only [Where.eval, he]
        exact ⟨by simp, by simp⟩
      | some b =>
        obtain ⟨ihl, ihe, ihc⟩ := evalLoop_trace_bound row ops crest 0 b h1
        simp only [Where.eval, he]
        constructor
        · simp only [List.length_cons]
          omega
        · rw [List.chain'_cons']
          exact ⟨fun y hy => ihe y (List.mem_of_mem_head? hy), ihc⟩

/-- Witness for C9: a two-condition AND predicate (evaluated against a
header and row that do not even cover the second column) evaluates at
most two conditions, in strictly increasing order. -/
theorem claim_C9_eval_bounded_witness :
    (([⟨"a", Operator.EQ, .str "x"⟩, ⟨"b", Operator.EQ, .str "y"⟩] :
        List Condition) ≠ []) ∧
    (Where.eval ⟨[⟨"a", Operator.EQ, .str "x"⟩, ⟨"b", Operator.EQ, .str "y"⟩],
        [Operator.AND]⟩ [("a", 0)] ["x"]).2.2.length ≤
      ([⟨"a", Operator.EQ, .str "x"⟩, ⟨"b", Operator.EQ, .str "y"⟩] :
        List Condition).length ∧
    List.Chain' (· < ·) (Where.eval ⟨[⟨"a", Operator.EQ, .str "x"⟩,
        ⟨"b", Operator.EQ, .str "y"⟩], [Operator.AND]⟩ [("a", 0)] ["x"]).2.2 :=
  ⟨by decide,
   (claim_C9_eval_bounded ⟨[⟨"a", Operator.EQ, .str "x"⟩,
      ⟨"b", Operator.EQ, .str "y"⟩], [Operator.AND]⟩ [("a", 0)] ["x"]
      (by decide) (by decide)).1,
   (claim_C9_eval_bounded ⟨[⟨"a", Operator.EQ, .str "x"⟩,
      ⟨"b", Operator.EQ, .str "y"⟩], [Operator.AND]⟩ [("a", 0)] ["x"]
      (by decide) (by decide)).2⟩
